import Mathlib

/-!
# Verification of the `grob` core: path-pattern matching and multi-tag grouping

This development embeds the core of the `grob` repository:

* `grob/core/files.py` — `FileCollection.add_if_matches`, `find_by_tag`,
  `group_by_key`, `_sort_collections_by_type` (translated from the source);
* the `PathParser` pattern compiler/matcher and the `Tag` record, whose
  source modules are not part of the analysed tree: those are modelled from
  the specification's token rules and interface description.

Python paths are modelled as their strings; Python `dict`s are modelled as
insertion-ordered association lists with Python's semantics (lookup finds the
first equal key; assignment replaces an existing binding in place, otherwise
appends); `raise` is modelled with `Except`.
-/

namespace Grob

/-- A filesystem path, modelled as its string form (`pathlib.Path`). -/
abbrev FilePath := String

/-- A key-part name (a placeholder identifier such as `"index"`). -/
abbrev PartName := String

/-- A tag name. -/
abbrev TagName := String

/-- The externally visible identity of a group (`grob.types.GroupKey`). -/
abbrev GroupKey := String

/-- A multi-part key: the mapping from key-part name to captured string
value produced by a successful match (`grob.core.parsers.MultiPartKey`,
a `frozendict`).  Modelled as an association list; equality of keys is
content-based (order-insensitive), see `keyBeq`. -/
abbrev MultiPartKey := List (PartName × String)

/-! ## Path parser

Modelled from the spec: `grob/core/path_parser.py` is not part of the
analysed sources (only its tests are), so `PathParser` is built from the
specification's compilation rules: escaped braces `\{`/`\}` are literal
brace characters; `{name}` is a lazy named capture and `{name!g}` a greedy
one; a standalone `*` segment matches one or more non-separator characters;
every other character passes through as native regex syntax.  The native
pass-through fragment is modelled at the single-character level: `.` matches
any character and any other pass-through character matches itself; larger
regex constructs (alternation, classes, quantifiers) are outside the
modelled fragment and are not exercised by the statements below. -/

/-- One compiled pattern token. -/
inductive PTok where
  /-- A pass-through character that matches exactly itself (also produced
  by the escaped braces `\{` and `\}`). -/
  | lit (c : Char)
  /-- The native regex `.`: matches any single character. -/
  | anyChar
  /-- A named capture `{name}` (lazy when `greedy = false`) or `{name!g}`
  (greedy).  A capture consumes one or more characters: the test suite pins
  that `foo/bar_{index}.txt` does not match `foo/bar_.txt`. -/
  | capture (name : PartName) (greedy : Bool)
  /-- A standalone `*` path segment: one or more characters excluding the
  path separator `/`. -/
  | starSeg
  deriving Repr, DecidableEq

/-- The captures of a successful match, in placeholder order (the
`groupdict` of the underlying regex match). -/
abbrev Captures := List (PartName × String)

/-- Lazy capture: consume as few characters as possible before the
continuation `k` (the matcher for the remaining tokens) succeeds.
`acc` holds the characters consumed so far, in reverse. -/
def lazyCap (n : PartName) (k : List Char → Option Captures)
    (acc ds : List Char) : Option Captures :=
  match ds with
  | [] =>
    match k [] with
    | some caps => some ((n, String.mk acc.reverse) :: caps)
    | none => none
  | d :: ds' =>
    match k (d :: ds') with
    | some caps => some ((n, String.mk acc.reverse) :: caps)
    | none => lazyCap n k (d :: acc) ds'

/-- Greedy capture: consume as many characters as possible, backtracking
to shorter captures only when the continuation fails. -/
def greedyCap (n : PartName) (k : List Char → Option Captures)
    (acc ds : List Char) : Option Captures :=
  match ds with
  | [] => (k []).map (fun caps => (n, String.mk acc.reverse) :: caps)
  | d :: ds' =>
    match greedyCap n k (d :: acc) ds' with
    | some caps => some caps
    | none => (k (d :: ds')).map (fun caps => (n, String.mk acc.reverse) :: caps)

/-- Star segment, continuation part: at least one character has already been
consumed; greedily consume further non-separator characters (the regex
`[^/]+`), falling back to the continuation on failure. -/
def starGo (k : List Char → Option Captures) (ds : List Char) :
    Option Captures :=
  match ds with
  | [] => k []
  | d :: ds' =>
    if d = '/' then k (d :: ds')
    else
      match starGo k ds' with
      | some caps => some caps
      | none => k (d :: ds')

/-- Star segment: one or more non-separator characters, then the rest. -/
def starFirst (k : List Char → Option Captures) (ds : List Char) :
    Option Captures :=
  match ds with
  | [] => none
  | d :: ds' => if d = '/' then none else starGo k ds'

/-- The backtracking matcher for a compiled token list.  The compiled
expression is anchored: the whole character list must be consumed. -/
def pmatchAux : List PTok → List Char → Option Captures
  | [] => fun ds => if ds.isEmpty then some [] else none
  | PTok.lit c :: ts => fun ds =>
      match ds with
      | [] => none
      | d :: ds' => if d = c then pmatchAux ts ds' else none
  | PTok.anyChar :: ts => fun ds =>
      match ds with
      | [] => none
      | _ :: ds' => pmatchAux ts ds'
  | PTok.capture n false :: ts => fun ds =>
      match ds with
      | [] => none
      | d :: ds' => lazyCap n (fun r => pmatchAux ts r) [d] ds'
  | PTok.capture n true :: ts => fun ds =>
      match ds with
      | [] => none
      | d :: ds' => greedyCap n (fun r => pmatchAux ts r) [d] ds'
  | PTok.starSeg :: ts => fun ds => starFirst (fun r => pmatchAux ts r) ds

/-- The tokenizer's scanning mode: either at top level (tracking whether the
scanner sits at a segment start, i.e. at the beginning of the pattern or
right after a `/`), or inside a `{...}` placeholder accumulating its name. -/
inductive ScanMode where
  | top (atSeg : Bool)
  | name (acc : List Char)

/-- Fuel-indexed tokenizer implementing the spec's compilation rules.
Returns `none` on a malformed placeholder or unbalanced brace
(PatternCompileError). -/
def tokF : Nat → ScanMode → List Char → Option (List PTok)
  | 0, _, _ => none
  | _ + 1, ScanMode.top _, [] => some []
  | n + 1, ScanMode.top _, '\\' :: '{' :: rest =>
      (tokF n (ScanMode.top false) rest).map (PTok.lit '{' :: ·)
  | n + 1, ScanMode.top _, '\\' :: '}' :: rest =>
      (tokF n (ScanMode.top false) rest).map (PTok.lit '}' :: ·)
  | n + 1, ScanMode.top _, '{' :: rest => tokF n (ScanMode.name []) rest
  | _ + 1, ScanMode.top _, '}' :: _ => none
  | n + 1, ScanMode.top atSeg, '*' :: rest =>
      if atSeg ∧ (rest = [] ∨ rest.head? = some '/') then
        (tokF n (ScanMode.top false) rest).map (PTok.starSeg :: ·)
      else
        (tokF n (ScanMode.top false) rest).map (PTok.lit '*' :: ·)
  | n + 1, ScanMode.top _, '.' :: rest =>
      (tokF n (ScanMode.top false) rest).map (PTok.anyChar :: ·)
  | n + 1, ScanMode.top _, c :: rest =>
      (tokF n (ScanMode.top (c = '/')) rest).map (PTok.lit c :: ·)
  | _ + 1, ScanMode.name _, [] => none
  | n + 1, ScanMode.name acc, '}' :: rest =>
      (tokF n (ScanMode.top false) rest).map
        (PTok.capture (String.mk acc.reverse) false :: ·)
  | n + 1, ScanMode.name acc, '!' :: 'g' :: '}' :: rest =>
      (tokF n (ScanMode.top false) rest).map
        (PTok.capture (String.mk acc.reverse) true :: ·)
  | _ + 1, ScanMode.name _, '!' :: _ => none
  | _ + 1, ScanMode.name _, '{' :: _ => none
  | n + 1, ScanMode.name acc, c :: rest => tokF n (ScanMode.name (c :: acc)) rest

/-- A compiled path pattern (the spec's `PathParser`): the compiled token
list.  Compilation is a pure function of the pattern string. -/
structure PathParser where
  tokens : List PTok
  deriving Repr, DecidableEq

/-- Compile a pattern string; `none` models PatternCompileError. -/
def PathParser.compile (pattern : String) : Option PathParser :=
  (tokF (pattern.data.length + 1) (ScanMode.top true) pattern.data).map PathParser.mk

/-- The ordered list of part names discovered at compile time. -/
def PathParser.key_parts (p : PathParser) : List PartName :=
  p.tokens.filterMap fun t =>
    match t with
    | PTok.capture n _ => some n
    | _ => none

/-- `match(path) -> key | none`: full anchored match of a path string. -/
def PathParser.matchPath (p : PathParser) (path : FilePath) : Option Captures :=
  pmatchAux p.tokens path.data

/-- `key_parts` of a pattern string: defined whenever the pattern compiles. -/
def key_parts (pattern : String) : Option (List PartName) :=
  (PathParser.compile pattern).map PathParser.key_parts

/-- Match a pattern string against a path (compile, then match). -/
def pmatch (pattern : String) (path : FilePath) : Option (Option Captures) :=
  (PathParser.compile pattern).map (fun p => p.matchPath path)

/-! ## Keys, dictionaries, errors -/

/-- A key stored in a `FileCollection.files` dictionary: either a
`MultiPartKey` (`frozendict`) or, for single-part tags, a `GroupKey`
produced directly by the tag's parser (`Union[GroupKey, MultiPartKey]`
in the source). -/
inductive FKey where
  | multi (k : MultiPartKey)
  | single (s : GroupKey)
  deriving Repr, DecidableEq

/-- Insert `x` into an already-sorted list, after any element `y` with
`le y x` (a stable insertion, matching Python's stable `sorted`). -/
def insortBy (le : α → α → Bool) (x : α) : List α → List α
  | [] => [x]
  | y :: ys => if le y x then y :: insortBy le x ys else x :: y :: ys

/-- Stable insertion sort (extensionally Python's stable `sorted(key=...)`). -/
def ssortBy (le : α → α → Bool) (l : List α) : List α :=
  l.foldl (fun acc x => insortBy le x acc) []

/-- Canonical form of a `MultiPartKey`: its pairs sorted by part name.
`frozendict` equality is content-based (order-insensitive), so two keys are
equal exactly when their canonical forms coincide. -/
def canonKey (k : MultiPartKey) : MultiPartKey :=
  ssortBy (fun p q => p.1 < q.1 || p.1 == q.1) k

/-- Canonical form of an `FKey`. -/
def canonF : FKey → FKey
  | FKey.multi k => FKey.multi (canonKey k)
  | FKey.single s => FKey.single s

/-- Dictionary-key equality: `frozendict` equality is content-based,
`GroupKey` equality is string equality, and a `frozendict` never equals a
string. -/
def keyBeq (a b : FKey) : Bool := decide (canonF a = canonF b)

/-- String dictionary-key equality (`GroupKey` and `TagName` keys). -/
def sBeq (a b : String) : Bool := decide (a = b)

/-- A value stored in a `FileCollection.files` dictionary:
`Union[Path, List[Path]]` in the source (one path for `allow_multiple =
false` tags, a list of paths otherwise). -/
inductive FileEntry where
  | one (p : FilePath)
  | many (ps : List FilePath)
  deriving Repr, DecidableEq

/-- A group: a mapping from tag name to path(s) (`grob.types.Group`),
modelled with Python `dict` semantics as an insertion-ordered association
list. -/
abbrev Group := List (TagName × FileEntry)

/-- `dict` lookup: the value at the first key equal (under `beq`) to `k`. -/
def alookup (beq : κ → κ → Bool) : List (κ × α) → κ → Option α
  | [], _ => none
  | (k', v) :: rest, k => if beq k' k then some v else alookup beq rest k

/-- `dict` assignment `d[k] = v`: replaces the value of an existing equal
key in place (keeping the stored key and its position, as Python does),
otherwise appends the new binding at the end. -/
def aset (beq : κ → κ → Bool) : List (κ × α) → κ → α → List (κ × α)
  | [], k, v => [(k, v)]
  | (k', v') :: rest, k, v =>
    if beq k' k then (k', v) :: rest else (k', v') :: aset beq rest k v

/-- A raised Python exception. -/
inductive PyErr where
  /-- `raise ValueError(file)` — the argument is the only information the
  exception carries. -/
  | valueError (arg : FilePath)
  /-- An `AttributeError` from calling a method on a value of the wrong
  dynamic type (e.g. `.append` on a `Path`, `.keys()` on a `str`). -/
  | attributeError
  /-- A dynamic type violation of a declared annotation (a `str`-keyed
  dictionary receiving a `frozendict` key or vice versa). -/
  | typeError
  deriving Repr, DecidableEq

/-! ## Tags

Modelled from the spec: `grob/core/tags.py` and `grob/core/parsers.py` are
not part of the analysed sources.  Per the spec, a tag is a named parser
plus an `allow_multiple` flag and a kind (ordinary multi-part,
distributable — carrying the `distribute_over` part names — or
single-part); the tag-level parser exposes the callable match and the
compile-time `key_parts` list used by `_sort_collections_by_type`. -/

/-- The tag-level parser interface: a callable returning the key for a
matching path (or `none`), and the ordered `key_parts` list. -/
structure TagParser where
  run : FilePath → Option FKey
  key_parts : List PartName

/-- The kind of a tag (`MultiPartTag`, `DistributableTag`, or single-part;
the source dispatches by `isinstance`). -/
inductive TagKind where
  | multi_part
  | distributable (distribute_over : List PartName)
  | single_part

/-- A tag: name, parser, `allow_multiple` flag and kind. -/
structure Tag where
  name : TagName
  parser : TagParser
  allow_multiple : Bool
  kind : TagKind

/-- `tag.distribute_over` (only meaningful for distributable tags). -/
def Tag.distribute_over (t : Tag) : List PartName :=
  match t.kind with
  | TagKind.distributable d => d
  | _ => []

/-- Is the tag a `DistributableTag`? -/
def Tag.isDistributable (t : Tag) : Bool :=
  match t.kind with
  | TagKind.distributable _ => true
  | _ => false

/-- Is the tag a `MultiPartTag` (and not a `DistributableTag`)? -/
def Tag.isMultiPart (t : Tag) : Bool :=
  match t.kind with
  | TagKind.multi_part => true
  | _ => false

/-! ## FileCollection and routing (`grob/core/files.py`) -/

/-- `FileCollection`: a tag together with the mapping from key to path(s)
accumulated so far. -/
structure FileCollection where
  tag : Tag
  files : List (FKey × FileEntry) := []

/-- `FileCollection.add_if_matches`: runs the tag's parser on the file.
On no match, returns `false` with the collection unchanged.  On a match
with `allow_multiple`, appends the path to the list at the key
(`self.files.setdefault(key, []).append(file)`); without `allow_multiple`,
inserts the path if the key is new and otherwise raises `ValueError(file)`
(the source's `# TODO: error message` branch). -/
def FileCollection.add_if_matches (c : FileCollection) (file : FilePath) :
    Except PyErr (FileCollection × Bool) :=
  match c.tag.parser.run file with
  | none => Except.ok (c, false)
  | some key =>
    if c.tag.allow_multiple then
      match alookup keyBeq c.files key with
      | none => Except.ok ({ c with files := c.files ++ [(key, FileEntry.many [file])] }, true)
      | some (FileEntry.many ps) =>
          Except.ok ({ c with files := aset keyBeq c.files key (FileEntry.many (ps ++ [file])) }, true)
      | some (FileEntry.one _) => Except.error PyErr.attributeError
    else
      match alookup keyBeq c.files key with
      | none => Except.ok ({ c with files := c.files ++ [(key, FileEntry.one file)] }, true)
      | some _ => Except.error (PyErr.valueError file)

/-- The inner loop of `find_by_tag`: try the collections in order and stop
at the first one that accepts the file (a raised exception propagates). -/
def routeFile : List FileCollection → FilePath → Except PyErr (List FileCollection)
  | [], _ => Except.ok []
  | c :: cs, file =>
    match c.add_if_matches file with
    | Except.error e => Except.error e
    | Except.ok (c', true) => Except.ok (c' :: cs)
    | Except.ok (c', false) =>
      match routeFile cs file with
      | Except.error e => Except.error e
      | Except.ok cs' => Except.ok (c' :: cs')

/-- The outer loop of `find_by_tag` over the input files. -/
def findAux : List FilePath → List FileCollection → Except PyErr (List FileCollection)
  | [], colls => Except.ok colls
  | file :: files, colls =>
    match routeFile colls file with
    | Except.error e => Except.error e
    | Except.ok colls' => findAux files colls'

/-- `find_by_tag(files, tags)`: one fresh collection per tag, then each
file is offered to the collections in tag order until one accepts it. -/
def find_by_tag (files : List FilePath) (tags : List Tag) :
    Except PyErr (List FileCollection) :=
  findAux files (tags.map fun tag => { tag := tag })

/-! ## Grouping (`group_by_key` and `_sort_collections_by_type`) -/

/-- `_sort_collections_by_type`: partitions the collections into ordinary
multi-part, distributable and single-part buckets, then sorts the
distributable bucket by ascending `len(collection.tag.parser.key_parts)`
(Python's stable `sorted`). -/
def _sort_collections_by_type (file_collections : List FileCollection) :
    List FileCollection × List FileCollection × List FileCollection :=
  let multi := file_collections.filter (fun c => c.tag.isMultiPart)
  let distributable := file_collections.filter (fun c => c.tag.isDistributable)
  let single := file_collections.filter (fun c => !c.tag.isMultiPart && !c.tag.isDistributable)
  let sorted := ssortBy
    (fun c₁ c₂ => c₁.tag.parser.key_parts.length ≤ c₂.tag.parser.key_parts.length)
    distributable
  (multi, sorted, single)

/-- Phase-1 insertion: `groups.setdefault(key, {})[tag_name] = path`. -/
def setdefaultSet (groups : List (FKey × Group)) (key : FKey) (name : TagName)
    (e : FileEntry) : List (FKey × Group) :=
  match alookup keyBeq groups key with
  | some g => aset keyBeq groups key (aset sBeq g name e)
  | none => groups ++ [(key, [(name, e)])]

/-- Phase 1 of `group_by_key`: insert every `(key, path)` of every ordinary
multi-part collection into the groups dictionary. -/
def phase1 (multi : List FileCollection) : List (FKey × Group) :=
  multi.foldl
    (fun groups c =>
      c.files.foldl (fun groups kv => setdefaultSet groups kv.1 c.tag.name kv.2) groups)
    []

/-- The phase-2 join key:
`frozendict({part: key[part] for part in key.keys() - set(distribute_over)})`.
Calling `.keys()` on a single-part (string) key raises `AttributeError`. -/
def reduceKey (key : FKey) (distribute_over : List PartName) : Except PyErr FKey :=
  match key with
  | FKey.multi k => Except.ok (FKey.multi (k.filter fun p => !(distribute_over.contains p.1)))
  | FKey.single _ => Except.error PyErr.attributeError

/-- Phase 2 for one distributable collection: for every existing group,
look its reduced join key up in the collection and, if present, attach the
found path(s) under the collection's tag name. -/
def distributeOne (c : FileCollection) :
    List (FKey × Group) → Except PyErr (List (FKey × Group))
  | [] => Except.ok []
  | kv :: rest =>
    match reduceKey kv.1 c.tag.distribute_over with
    | Except.error e => Except.error e
    | Except.ok joinKey =>
      match distributeOne c rest with
      | Except.error e => Except.error e
      | Except.ok rest' =>
        match alookup keyBeq c.files joinKey with
        | some e => Except.ok ((kv.1, aset sBeq kv.2 c.tag.name e) :: rest')
        | none => Except.ok (kv :: rest')

/-- Phase 2 over all distributable collections, in the sorted order. -/
def distributeAll : List FileCollection → List (FKey × Group) →
    Except PyErr (List (FKey × Group))
  | [], groups => Except.ok groups
  | c :: cs, groups =>
    match distributeOne c groups with
    | Except.error e => Except.error e
    | Except.ok groups' => distributeAll cs groups'

/-- Phase 3, accumulator form: the dictionary comprehension builds a fresh
dictionary in iteration order (a later group whose formatted key collides
with an earlier one overwrites it in place, as a Python dict does). -/
def formatKeysAux (key_formatter : MultiPartKey → GroupKey) :
    List (FKey × Group) → List (GroupKey × Group) →
    Except PyErr (List (GroupKey × Group))
  | [], acc => Except.ok acc
  | kv :: rest, acc =>
    match kv.1 with
    | FKey.multi k =>
        formatKeysAux key_formatter rest (aset sBeq acc (key_formatter k) kv.2)
    | FKey.single _ => Except.error PyErr.typeError

/-- Phase 3: `{key_formatter(key_parts): group for key_parts, group in
groups.items()}`.  The formatter's annotated domain is `MultiPartKey`;
a single-part key reaching this point is a dynamic type violation. -/
def formatKeys (key_formatter : MultiPartKey → GroupKey)
    (groups : List (FKey × Group)) : Except PyErr (List (GroupKey × Group)) :=
  formatKeysAux key_formatter groups []

/-- Phase-4 insertion into the formatted dictionary:
`formatted_groups.setdefault(key, {})[tag_name] = path`. -/
def setdefaultSetStr (fg : List (GroupKey × Group)) (s : GroupKey)
    (name : TagName) (e : FileEntry) : List (GroupKey × Group) :=
  match alookup sBeq fg s with
  | some g => aset sBeq fg s (aset sBeq g name e)
  | none => fg ++ [(s, [(name, e)])]

/-- Phase 4, entry loop: insert each entry of a single-part collection
under its own native key.  The native key of a single-part tag is a
`GroupKey`; a multi-part key here violates the declared
`Dict[GroupKey, Group]` result type. -/
def mergeSingleAux (name : TagName) :
    List (FKey × FileEntry) → List (GroupKey × Group) →
    Except PyErr (List (GroupKey × Group))
  | [], fg => Except.ok fg
  | kv :: rest, fg =>
    match kv.1 with
    | FKey.single s => mergeSingleAux name rest (setdefaultSetStr fg s name kv.2)
    | FKey.multi _ => Except.error PyErr.typeError

/-- Phase 4 for one single-part collection. -/
def mergeSingleOne (c : FileCollection) (fg : List (GroupKey × Group)) :
    Except PyErr (List (GroupKey × Group)) :=
  mergeSingleAux c.tag.name c.files fg

/-- Phase 4 over all single-part collections. -/
def mergeSingles : List FileCollection → List (GroupKey × Group) →
    Except PyErr (List (GroupKey × Group))
  | [], fg => Except.ok fg
  | c :: cs, fg =>
    match mergeSingleOne c fg with
    | Except.error e => Except.error e
    | Except.ok fg' => mergeSingles cs fg'

/-- `group_by_key(file_collections, key_formatter)`: the three-phase join.
Multi-part collections establish the groups; distributable collections are
joined in ascending key-part count; keys are then formatted; single-part
collections are merged last under their native keys. -/
def group_by_key (file_collections : List FileCollection)
    (key_formatter : MultiPartKey → GroupKey) :
    Except PyErr (List (GroupKey × Group)) :=
  match _sort_collections_by_type file_collections with
  | (multi, distributable, single) =>
    match distributeAll distributable (phase1 multi) with
    | Except.error e => Except.error e
    | Except.ok groups =>
      match formatKeys key_formatter groups with
      | Except.error e => Except.error e
      | Except.ok formatted => mergeSingles single formatted

/-! ## Auxiliary notions used by the statements -/

/-- The paths held by one dictionary value. -/
def entryPaths : FileEntry → List FilePath
  | FileEntry.one p => [p]
  | FileEntry.many ps => ps

/-- `p` is stored somewhere in the collection `c`. -/
def memColl (p : FilePath) (c : FileCollection) : Prop :=
  ∃ kv, kv ∈ c.files ∧ p ∈ entryPaths kv.2

/-- Representation invariant tying the dynamic types of the stored values
to the tag's `allow_multiple` flag: a collection of an `allow_multiple` tag
stores lists.  It holds for the empty collection and is preserved by
`add_if_matches`. -/
def collWF (c : FileCollection) : Prop :=
  c.tag.allow_multiple = true → ∀ kv ∈ c.files, ∃ ps, kv.2 = FileEntry.many ps

/-- The list already stored at `key` (empty when the key is new). -/
def prevList (c : FileCollection) (key : FKey) : List FilePath :=
  match alookup keyBeq c.files key with
  | some (FileEntry.many ps) => ps
  | _ => []

/-- Erase the greediness modifier of every capture token (the token-level
image of deleting each `!g` from a pattern). -/
def stripGreedy : PTok → PTok
  | PTok.capture n _ => PTok.capture n false
  | t => t

/-- The routing law, stated positionally: whenever a path is stored in the
collection at some position of the list, that collection's own tag matches
the path and every collection before it does not match it. -/
def FirstMatchProp (colls : List FileCollection) : Prop :=
  ∀ p pre c post, colls = pre ++ c :: post → memColl p c →
    ((c.tag.parser.run p).isSome = true ∧ ∀ c' ∈ pre, c'.tag.parser.run p = none)

/-- A concrete parser mapping every path to the key `{id: "1"}` (for the
duplicate-key scenario of the spec: both `a/1.jpg` and `b/1.jpg` reduce to
the same key under a non-`allow_multiple` tag). -/
def dupDemoParser : TagParser :=
  { run := fun _ => some (FKey.multi [("id", "1")]), key_parts := ["id"] }

/-- A single-path (`allow_multiple = false`) tag using `dupDemoParser`. -/
def dupDemoTag : Tag :=
  { name := "img", parser := dupDemoParser, allow_multiple := false,
    kind := TagKind.multi_part }

/-- The same tag with `allow_multiple = true`. -/
def multiDemoTag : Tag :=
  { name := "img", parser := dupDemoParser, allow_multiple := true,
    kind := TagKind.multi_part }

/-- A distributable demo tag (`distribute_over = ["ci"]`), as in the spec's
crop/caption scenario. -/
def distDemoTag : Tag :=
  { name := "caption", parser := dupDemoParser, allow_multiple := false,
    kind := TagKind.distributable ["ci"] }

/-- A demo collection of `distDemoTag` holding `1.txt` at reduced key
`{id: "1"}`. -/
def distDemoColl : FileCollection :=
  { tag := distDemoTag,
    files := [(FKey.multi [("id", "1")], FileEntry.one ("1.txt"))] }

/-- Demo phase-1 groups for the crop/caption scenario: one group at full
key `{id: "1", ci: "0"}`. -/
def demoGroups : List (FKey × Group) :=
  [(FKey.multi [("id", "1"), ("ci", "0")],
    [("crop", FileEntry.one ("1_0.jpg"))])]

/-! ## Association-list (Python dict) lemmas -/

theorem alookup_mem {κ α : Type} {beq : κ → κ → Bool} {l : List (κ × α)}
    {k : κ} {v : α} (h : alookup beq l k = some v) :
    ∃ k', (k', v) ∈ l ∧ beq k' k = true := by
  induction l with
  | nil => simp [alookup] at h
  | cons kv rest ih =>
    obtain ⟨k', v'⟩ := kv
    by_cases hb : beq k' k = true
    · simp only [alookup, hb, if_true, Option.some.injEq] at h
      exact ⟨k', by simp [h], hb⟩
    · simp only [alookup, hb, if_false] at h
      obtain ⟨k'', hm, hb'⟩ := ih h
      exact ⟨k'', by simp [hm], hb'⟩

theorem mem_aset {κ α : Type} {beq : κ → κ → Bool} {l : List (κ × α)}
    {k : κ} {v : α} {q : κ × α} (h : q ∈ aset beq l k v) :
    q ∈ l ∨ (q.2 = v ∧ (beq q.1 k = true ∨ q.1 = k)) := by
  induction l with
  | nil =>
    simp [aset] at h
    simp [h]
  | cons kv rest ih =>
    obtain ⟨k', v'⟩ := kv
    by_cases hb : beq k' k = true
    · simp only [aset, hb, if_true] at h
      rcases List.mem_cons.mp h with h | h
      · right
        refine ⟨by simp [h], Or.inl ?_⟩
        rw [h]
        exact hb
      · left; exact List.mem_cons_of_mem _ h
    · simp only [aset, hb, if_false] at h
      rcases List.mem_cons.mp h with h | h
      · left; simp [h]
      · rcases ih h with h | h
        · left; exact List.mem_cons_of_mem _ h
        · right; exact h

theorem alookup_aset_self {κ α : Type} {beq : κ → κ → Bool} {l : List (κ × α)}
    {k : κ} {v : α} (hrefl : beq k k = true) :
    alookup beq (aset beq l k v) k = some v := by
  induction l with
  | nil => simp [aset, alookup, hrefl]
  | cons kv rest ih =>
    obtain ⟨k', v'⟩ := kv
    by_cases hb : beq k' k = true
    · simp [aset, alookup, hb]
    · simp [aset, alookup, hb, ih]

theorem alookup_aset_ne {κ α : Type} {beq : κ → κ → Bool} {l : List (κ × α)}
    {k k0 : κ} {v : α} (hk0 : beq k k0 = false)
    (himp : ∀ a, beq a k = true → beq a k0 = false) :
    alookup beq (aset beq l k v) k0 = alookup beq l k0 := by
  induction l with
  | nil => simp [aset, alookup, hk0]
  | cons kv rest ih =>
    obtain ⟨k', v'⟩ := kv
    by_cases hb : beq k' k = true
    · simp [aset, alookup, hb, himp k' hb]
    · by_cases hb0 : beq k' k0 = true
      · simp [aset, alookup, hb, hb0]
      · simp [aset, alookup, hb, hb0, ih]

theorem alookup_append_single {κ α : Type} {beq : κ → κ → Bool}
    {l : List (κ × α)} {k1 k0 : κ} {v : α} :
    alookup beq (l ++ [(k1, v)]) k0 =
      match alookup beq l k0 with
      | some w => some w
      | none => if beq k1 k0 then some v else none := by
  induction l with
  | nil => simp [alookup]
  | cons kv rest ih =>
    obtain ⟨k', v'⟩ := kv
    by_cases hb : beq k' k0 = true
    · simp [alookup, hb]
    · simp [alookup, hb, ih]

theorem keyBeq_refl (k : FKey) : keyBeq k k = true := by simp [keyBeq]

theorem keyBeq_false_himp {k k0 : FKey} (h : keyBeq k k0 = false) :
    ∀ a, keyBeq a k = true → keyBeq a k0 = false := by
  intro a ha
  simp only [keyBeq, decide_eq_true_eq] at ha
  simp only [keyBeq, decide_eq_false_iff_not] at h ⊢
  rw [ha]; exact h

/-! ## `add_if_matches`: basic case analysis -/

theorem add_if_matches_ok {c c' : FileCollection} {f : FilePath} {b : Bool}
    (h : c.add_if_matches f = Except.ok (c', b)) :
    c'.tag = c.tag ∧
    (b = false → c' = c ∧ c.tag.parser.run f = none) ∧
    (b = true → (c.tag.parser.run f).isSome) ∧
    (∀ p, memColl p c' → memColl p c ∨ p = f) := by
  unfold FileCollection.add_if_matches at h
  split at h
  next hrun =>
    simp only [Except.ok.injEq, Prod.mk.injEq] at h
    obtain ⟨hc, hb⟩ := h
    subst hc; subst hb
    exact ⟨rfl, fun _ => ⟨rfl, hrun⟩, by simp, fun p hp => Or.inl hp⟩
  next key hrun =>
    split at h
    · -- allow_multiple
      split at h
      next halk =>
        simp only [Except.ok.injEq, Prod.mk.injEq] at h
        obtain ⟨hc, hb⟩ := h
        subst hb
        refine ⟨by rw [← hc], by simp, fun _ => by simp [hrun], fun p hp => ?_⟩
        rw [← hc] at hp
        obtain ⟨kv, hkv, hpe⟩ := hp
        rcases List.mem_append.mp hkv with hold | hnew
        · exact Or.inl ⟨kv, hold, hpe⟩
        · simp only [List.mem_singleton] at hnew
          subst hnew
          simp [entryPaths] at hpe
          exact Or.inr hpe
      next ps halk =>
        simp only [Except.ok.injEq, Prod.mk.injEq] at h
        obtain ⟨hc, hb⟩ := h
        subst hb
        refine ⟨by rw [← hc], by simp, fun _ => by simp [hrun], fun p hp => ?_⟩
        rw [← hc] at hp
        obtain ⟨kv, hkv, hpe⟩ := hp
        rcases mem_aset hkv with hold | hnew
        · exact Or.inl ⟨kv, hold, hpe⟩
        · rw [hnew.1] at hpe
          simp only [entryPaths, List.mem_append, List.mem_singleton] at hpe
          rcases hpe with hpe | hpe
          · obtain ⟨k', hm, _⟩ := alookup_mem halk
            exact Or.inl ⟨(k', FileEntry.many ps), hm, hpe⟩
          · exact Or.inr hpe
      next p0 halk => cases h
    · -- not allow_multiple
      split at h
      next halk =>
        simp only [Except.ok.injEq, Prod.mk.injEq] at h
        obtain ⟨hc, hb⟩ := h
        subst hb
        refine ⟨by rw [← hc], by simp, fun _ => by simp [hrun], fun p hp => ?_⟩
        rw [← hc] at hp
        obtain ⟨kv, hkv, hpe⟩ := hp
        rcases List.mem_append.mp hkv with hold | hnew
        · exact Or.inl ⟨kv, hold, hpe⟩
        · simp only [List.mem_singleton] at hnew
          subst hnew
          simp [entryPaths] at hpe
          exact Or.inr hpe
      next e halk => cases h

/-- C1 (code_bug evidence): on the duplicate-key scenario the code raises a
plain `ValueError` whose only payload is the newly offered path — it names
neither the conflicting tag, nor the key, nor the already-stored path. -/
theorem c1_duplicate_key_error_payload :
    find_by_tag ["a/1.jpg", "b/1.jpg"] [dupDemoTag] =
      Except.error (PyErr.valueError ("b/1.jpg")) ∧
    FileCollection.add_if_matches
        { tag := dupDemoTag,
          files := [(FKey.multi [("id", "1")], FileEntry.one ("a/1.jpg"))] }
        ("b/1.jpg") =
      Except.error (PyErr.valueError ("b/1.jpg")) :=
  ⟨rfl, rfl⟩

/-- C9: for a tag with `allow_multiple = true`, `add_if_matches` never
raises: a non-matching file leaves the collection unchanged, and a matching
file is appended at the end of the list stored at its key (created on first
match), all other keys untouched. -/
theorem c9_allow_multiple_appends (c : FileCollection) (f : FilePath)
    (hwf : collWF c) (ham : c.tag.allow_multiple = true) :
    (c.tag.parser.run f = none → c.add_if_matches f = Except.ok (c, false)) ∧
    (∀ key, c.tag.parser.run f = some key → ∃ c',
      c.add_if_matches f = Except.ok (c', true) ∧
      alookup keyBeq c'.files key =
        some (FileEntry.many (prevList c key ++ [f])) ∧
      ∀ k0, keyBeq key k0 = false →
        alookup keyBeq c'.files k0 = alookup keyBeq c.files k0) := by
  constructor
  · intro hrun
    unfold FileCollection.add_if_matches
    rw [hrun]
  · intro key hrun
    cases halk : alookup keyBeq c.files key with
    | none =>
      refine ⟨{ c with files := c.files ++ [(key, FileEntry.many [f])] }, ?_, ?_, ?_⟩
      · simp [FileCollection.add_if_matches, hrun, ham, halk]
      · show alookup keyBeq (c.files ++ [(key, FileEntry.many [f])]) key = _
        simp [alookup_append_single, halk, keyBeq_refl, prevList]
      · intro k0 hk0
        show alookup keyBeq (c.files ++ [(key, FileEntry.many [f])]) k0 = _
        rw [alookup_append_single]
        cases halk0 : alookup keyBeq c.files k0 with
        | none => simp [hk0]
        | some w => simp
    | some e =>
      cases e with
      | many ps =>
        refine ⟨{ c with
            files := aset keyBeq c.files key (FileEntry.many (ps ++ [f])) },
          ?_, ?_, ?_⟩
        · simp [FileCollection.add_if_matches, hrun, ham, halk]
        · show alookup keyBeq
            (aset keyBeq c.files key (FileEntry.many (ps ++ [f]))) key = _
          rw [alookup_aset_self (keyBeq_refl key)]
          simp [prevList, halk]
        · intro k0 hk0
          show alookup keyBeq
            (aset keyBeq c.files key (FileEntry.many (ps ++ [f]))) k0 = _
          exact alookup_aset_ne hk0 (keyBeq_false_himp hk0)
      | one p0 =>
        exfalso
        obtain ⟨k', hm, _⟩ := alookup_mem halk
        obtain ⟨ps, hps⟩ := hwf ham (k', FileEntry.one p0) hm
        cases hps

/-- Witness for C9 at a concrete input: the empty collection of an
`allow_multiple` tag accepts `a/1.jpg`. -/
theorem c9_allow_multiple_appends_witness :
    collWF { tag := multiDemoTag } ∧
    ((multiDemoTag.parser.run ("a/1.jpg") = none →
      FileCollection.add_if_matches { tag := multiDemoTag } ("a/1.jpg") =
        Except.ok ({ tag := multiDemoTag }, false)) ∧
    (∀ key, multiDemoTag.parser.run ("a/1.jpg") = some key → ∃ c',
      FileCollection.add_if_matches { tag := multiDemoTag } ("a/1.jpg") =
        Except.ok (c', true) ∧
      alookup keyBeq c'.files key =
        some (FileEntry.many
          (prevList { tag := multiDemoTag } key ++ [("a/1.jpg" : FilePath)])) ∧
      ∀ k0, keyBeq key k0 = false →
        alookup keyBeq c'.files k0 =
          alookup keyBeq ({ tag := multiDemoTag } : FileCollection).files k0)) := by
  have hwf : collWF { tag := multiDemoTag } := by
    intro _ kv hkv
    cases hkv
  exact ⟨hwf, c9_allow_multiple_appends { tag := multiDemoTag } ("a/1.jpg") hwf rfl⟩

/-! ## Routing lemmas (`find_by_tag`) -/

theorem forall2_compose {α β γ : Type} {r : α → β → Prop} {s : β → γ → Prop}
    {t : α → γ → Prop} (hc : ∀ a b c, r a b → s b c → t a c) :
    ∀ {l₁ : List α} {l₂ : List β} {l₃ : List γ},
      List.Forall₂ r l₁ l₂ → List.Forall₂ s l₂ l₃ → List.Forall₂ t l₁ l₃ := by
  intro l₁ l₂ l₃ h₁
  induction h₁ generalizing l₃ with
  | nil =>
    intro h₂
    cases h₂
    exact List.Forall₂.nil
  | cons hr _ ih =>
    intro h₂
    cases h₂ with
    | cons hs ht => exact List.Forall₂.cons (hc _ _ _ hr hs) (ih ht)

theorem forall2_split_right {α β : Type} {r : α → β → Prop} :
    ∀ {pre' : List β} {l : List α} {x : β} {post' : List β},
      List.Forall₂ r l (pre' ++ x :: post') →
      ∃ pre y post, l = pre ++ y :: post ∧ List.Forall₂ r pre pre' ∧ r y x ∧
        List.Forall₂ r post post' := by
  intro pre'
  induction pre' with
  | nil =>
    intro l x post' h
    cases h with
    | cons hr ht => exact ⟨[], _, _, rfl, List.Forall₂.nil, hr, ht⟩
  | cons b pre' ih =>
    intro l x post' h
    cases h with
    | cons hr ht =>
      obtain ⟨pre, y, post, heq, h1, h2, h3⟩ := ih ht
      exact ⟨_ :: pre, y, post, by rw [heq, List.cons_append],
        List.Forall₂.cons hr h1, h2, h3⟩

/-- One `routeFile` step: collections keep their tags, only the offered
file can newly appear anywhere, a collection whose tag does not match the
file is left unchanged, and the first-match property is preserved. -/
theorem routeFile_step {f : FilePath} :
    ∀ {colls colls' : List FileCollection}, routeFile colls f = Except.ok colls' →
      List.Forall₂ (fun c c' => c'.tag = c.tag ∧
          (∀ p, memColl p c' → memColl p c ∨ p = f) ∧
          (c.tag.parser.run f = none → c' = c)) colls colls' ∧
      (FirstMatchProp colls → FirstMatchProp colls') := by
  intro colls
  induction colls with
  | nil =>
    intro colls' h
    simp only [routeFile, Except.ok.injEq] at h
    subst h
    exact ⟨List.Forall₂.nil, fun hf => hf⟩
  | cons c cs ih =>
    intro colls' h
    unfold routeFile at h
    split at h
    · exact Except.noConfusion h
    case h_2 c1 hadd =>
      injection h with h
      subst h
      obtain ⟨htag, hfalse, htrue, hmem⟩ := add_if_matches_ok hadd
      constructor
      · refine List.Forall₂.cons ⟨htag, hmem, fun hnone => ?_⟩
          ((List.forall₂_same).mpr (fun x _ => ⟨rfl, fun p hp => Or.inl hp, fun _ => rfl⟩))
        exact absurd (htrue rfl) (by simp [hnone])
      · intro hfmp p pre cx post hsplit hmemx
        cases pre with
        | nil =>
          simp only [List.nil_append, List.cons.injEq] at hsplit
          obtain ⟨hcx, hpost⟩ := hsplit
          have hmemc1 : memColl p c1 := by rw [hcx]; exact hmemx
          rcases hmem p hmemc1 with hold | hpf
          · have hc := hfmp p [] c cs rfl hold
            refine ⟨?_, by simp⟩
            rw [← hcx, htag]
            exact hc.1
          · subst hpf
            refine ⟨?_, by simp⟩
            rw [← hcx, htag]
            exact htrue rfl
        | cons chead pre' =>
          rw [List.cons_append] at hsplit
          injection hsplit with h1 h2
          have hres := hfmp p (c :: pre') cx post (by simp [h2]) hmemx
          refine ⟨hres.1, ?_⟩
          intro c' hc'
          rcases List.mem_cons.mp hc' with hceq | hc'
          · rw [hceq, ← h1, htag]
            exact hres.2 c (List.mem_cons_self c pre')
          · exact hres.2 c' (List.mem_cons_of_mem c hc')
    case h_3 c1 hadd =>
      split at h
      · exact Except.noConfusion h
      case h_2 cs' hroute =>
        injection h with h
        subst h
        obtain ⟨htag, hfalse, htrue, hmem⟩ := add_if_matches_ok hadd
        obtain ⟨hc1, hrun⟩ := hfalse rfl
        subst hc1
        obtain ⟨ihmem, ihfmp⟩ := ih hroute
        constructor
        · exact List.Forall₂.cons ⟨rfl, fun p hp => Or.inl hp, fun _ => rfl⟩ ihmem
        · intro hfmp
          have hfmpcs : FirstMatchProp cs := by
            intro p pre cx post hsplit hmemx
            have hres := hfmp p (c1 :: pre) cx post (by simp [hsplit]) hmemx
            exact ⟨hres.1, fun c' hc' => hres.2 c' (List.mem_cons_of_mem c1 hc')⟩
          have hfmpcs' := ihfmp hfmpcs
          intro p pre cx post hsplit hmemx
          cases pre with
          | nil =>
            simp only [List.nil_append, List.cons.injEq] at hsplit
            obtain ⟨hcx, _⟩ := hsplit
            have hmemc : memColl p c1 := by rw [hcx]; exact hmemx
            have hres := hfmp p [] c1 cs rfl hmemc
            refine ⟨?_, by simp⟩
            rw [← hcx]
            exact hres.1
          | cons chead pre' =>
            rw [List.cons_append] at hsplit
            injection hsplit with h1 h2
            have hres' := hfmpcs' p pre' cx post h2 hmemx
            refine ⟨hres'.1, ?_⟩
            intro c' hc'
            rcases List.mem_cons.mp hc' with hceq | hc'
            · obtain ⟨pre_cs, cy, post_cs, hcs_eq, _, hr_y, _⟩ :=
                forall2_split_right (h2 ▸ ihmem)
              rcases hr_y.2.1 p hmemx with hold | hpf
              · have hy := hfmp p (c1 :: pre_cs) cy post_cs (by simp [hcs_eq]) hold
                rw [hceq, ← h1]
                exact hy.2 c1 (List.mem_cons_self c1 pre_cs)
              · rw [hceq, ← h1, hpf]
                exact hrun
            · exact hres'.2 c' hc'

/-- `findAux` over a file list: collections keep their tags, a collection
whose tag matches none of the offered files is left unchanged, and the
first-match property is preserved. -/
theorem findAux_step :
    ∀ (files : List FilePath) {colls colls' : List FileCollection},
      findAux files colls = Except.ok colls' →
      List.Forall₂ (fun c c' => c'.tag = c.tag ∧
          ((∀ f ∈ files, c.tag.parser.run f = none) → c' = c)) colls colls' ∧
      (FirstMatchProp colls → FirstMatchProp colls') := by
  intro files
  induction files with
  | nil =>
    intro colls colls' h
    simp only [findAux, Except.ok.injEq] at h
    subst h
    exact ⟨(List.forall₂_same).mpr (fun x _ => ⟨rfl, fun _ => rfl⟩), fun hf => hf⟩
  | cons f fs ih =>
    intro colls colls' h
    unfold findAux at h
    split at h
    · exact Except.noConfusion h
    case h_2 mid hroute =>
      obtain ⟨hmem, hfmp⟩ := routeFile_step hroute
      obtain ⟨ihtag, ihfmp⟩ := ih h
      refine ⟨forall2_compose ?_ hmem ihtag, fun h0 => ihfmp (hfmp h0)⟩
      rintro a b c ⟨hab, _, hunch⟩ ⟨hbc, hunch'⟩
      refine ⟨hbc.trans hab, fun hall => ?_⟩
      have hb : b = a := hunch (hall f (List.mem_cons_self f fs))
      have hc : c = b := by
        refine hunch' (fun g hg => ?_)
        rw [hab]
        exact hall g (List.mem_cons_of_mem f hg)
      rw [hc, hb]

/-- A file matching no tag is absorbed without any error and without any
change to the collections. -/
theorem routeFile_no_match (p : FilePath) :
    ∀ colls0 : List FileCollection,
      (∀ c ∈ colls0, c.tag.parser.run p = none) →
      routeFile colls0 p = Except.ok colls0 := by
  intro colls0
  induction colls0 with
  | nil => intro _; rfl
  | cons c cs ih =>
    intro hall
    have hrun : c.tag.parser.run p = none := hall c (List.mem_cons_self c cs)
    have hadd : c.add_if_matches p = Except.ok (c, false) := by
      unfold FileCollection.add_if_matches
      rw [hrun]
    have hcs := ih (fun c' hc' => hall c' (List.mem_cons_of_mem c hc'))
    simp [routeFile, hadd, hcs]

/-- C10: `find_by_tag` returns exactly one collection per input tag, in tag
order; a tag matching no file still yields its (empty) collection. -/
theorem c10_one_collection_per_tag (files : List FilePath) (tags : List Tag)
    (colls : List FileCollection) (h : find_by_tag files tags = Except.ok colls) :
    colls.length = tags.length ∧
    List.Forall₂ (fun (t : Tag) (c : FileCollection) =>
      c.tag = t ∧ ((∀ f ∈ files, t.parser.run f = none) → c.files = []))
      tags colls := by
  have hstep := (findAux_step files h).1
  have hconv := (List.forall₂_map_left_iff).mp hstep
  have hres : List.Forall₂ (fun (t : Tag) (c : FileCollection) =>
      c.tag = t ∧ ((∀ f ∈ files, t.parser.run f = none) → c.files = []))
      tags colls := by
    refine hconv.imp (fun t c hr => ⟨hr.1, fun hall => ?_⟩)
    rw [hr.2 hall]
  exact ⟨hres.length_eq.symm, hres⟩

/-- Witness for C10 at a concrete input: one tag, one matching file. -/
theorem c10_one_collection_per_tag_witness :
    ([({ tag := dupDemoTag,
         files := [(FKey.multi [("id", "1")], FileEntry.one ("a/1.jpg"))] } :
          FileCollection)]).length = ([dupDemoTag] : List Tag).length ∧
    List.Forall₂ (fun (t : Tag) (c : FileCollection) =>
      c.tag = t ∧ ((∀ f ∈ ["a/1.jpg"], t.parser.run f = none) → c.files = []))
      [dupDemoTag]
      [({ tag := dupDemoTag,
           files := [(FKey.multi [("id", "1")], FileEntry.one ("a/1.jpg"))] } :
           FileCollection)] :=
  c10_one_collection_per_tag ["a/1.jpg"] [dupDemoTag] _ (by rfl)

/-- C2: routing law.  Whenever `find_by_tag` succeeds, a path stored in a
collection is matched by that collection's own tag while every collection
listed before it does not match the path (so each file lands in at most one
collection, the one of the first tag in caller-supplied order whose pattern
matches); and a file matching no tag is dropped without error and without
touching any collection. -/
theorem c2_first_match_routing (files : List FilePath) (tags : List Tag)
    (colls : List FileCollection) (h : find_by_tag files tags = Except.ok colls) :
    FirstMatchProp colls ∧
    (∀ (p : FilePath) (colls0 : List FileCollection),
      (∀ c ∈ colls0, c.tag.parser.run p = none) →
      routeFile colls0 p = Except.ok colls0) := by
  constructor
  · refine (findAux_step files h).2 ?_
    intro p pre c post hsplit hmem
    exfalso
    have hc : c ∈ tags.map (fun tag => ({ tag := tag } : FileCollection)) := by
      rw [hsplit]
      exact List.mem_append_right pre (List.mem_cons_self c post)
    obtain ⟨t, _, hct⟩ := List.mem_map.mp hc
    obtain ⟨kv, hkv, _⟩ := hmem
    rw [← hct] at hkv
    cases hkv
  · intro p colls0 hall
    exact routeFile_no_match p colls0 hall

/-- Witness for C2 at a concrete input: one tag, one matching file. -/
theorem c2_first_match_routing_witness :
    FirstMatchProp [({ tag := dupDemoTag,
                       files := [(FKey.multi [("id", "1")],
                         FileEntry.one ("a/1.jpg"))] } : FileCollection)] ∧
    (∀ (p : FilePath) (colls0 : List FileCollection),
      (∀ c ∈ colls0, c.tag.parser.run p = none) →
      routeFile colls0 p = Except.ok colls0) :=
  c2_first_match_routing ["a/1.jpg"] [dupDemoTag] _ (by rfl)

/-! ## Sorting lemmas (`_sort_collections_by_type`) -/

theorem insortBy_perm {α : Type} (le : α → α → Bool) (x : α) :
    ∀ l : List α, List.Perm (insortBy le x l) (x :: l) := by
  intro l
  induction l with
  | nil => exact List.Perm.refl _
  | cons y ys ih =>
    unfold insortBy
    by_cases h : le y x = true
    · rw [if_pos h]
      exact List.Perm.trans (List.Perm.cons y ih) (List.Perm.swap x y ys)
    · rw [if_neg h]

theorem ssortBy_foldl_perm {α : Type} (le : α → α → Bool) :
    ∀ (l acc : List α),
      List.Perm (List.foldl (fun acc x => insortBy le x acc) acc l) (l ++ acc) := by
  intro l
  induction l with
  | nil => intro acc; exact List.Perm.refl _
  | cons x xs ih =>
    intro acc
    have h1 := ih (insortBy le x acc)
    have h2 : List.Perm (xs ++ insortBy le x acc) (xs ++ (x :: acc)) :=
      List.Perm.append_left xs (insortBy_perm le x acc)
    have h3 : List.Perm (xs ++ (x :: acc)) (x :: (xs ++ acc)) := List.perm_middle
    exact List.Perm.trans h1 (List.Perm.trans h2 h3)

theorem ssortBy_perm {α : Type} (le : α → α → Bool) (l : List α) :
    List.Perm (ssortBy le l) l := by
  have h := ssortBy_foldl_perm le l []
  rw [List.append_nil] at h
  exact h

theorem insortBy_pairwise {α : Type} (le : α → α → Bool)
    (htot : ∀ a b, le a b = true ∨ le b a = true)
    (htr : ∀ a b c, le a b = true → le b c = true → le a c = true) (x : α) :
    ∀ l, List.Pairwise (fun a b => le a b = true) l →
      List.Pairwise (fun a b => le a b = true) (insortBy le x l) := by
  intro l
  induction l with
  | nil => intro _; simp [insortBy]
  | cons y ys ih =>
    intro hp
    obtain ⟨hy, hys⟩ := List.pairwise_cons.mp hp
    unfold insortBy
    by_cases h : le y x = true
    · rw [if_pos h]
      refine List.pairwise_cons.mpr ⟨?_, ih hys⟩
      intro z hz
      have hz' := (insortBy_perm le x ys).mem_iff.mp hz
      rcases List.mem_cons.mp hz' with hzx | hzy
      · rw [hzx]; exact h
      · exact hy z hzy
    · rw [if_neg h]
      rcases htot x y with hxy | hyx
      · refine List.pairwise_cons.mpr ⟨?_, hp⟩
        intro z hz
        rcases List.mem_cons.mp hz with hzy | hzys
        · rw [hzy]; exact hxy
        · exact htr x y z hxy (hy z hzys)
      · exact absurd hyx h

theorem ssortBy_pairwise {α : Type} (le : α → α → Bool)
    (htot : ∀ a b, le a b = true ∨ le b a = true)
    (htr : ∀ a b c, le a b = true → le b c = true → le a c = true) :
    ∀ (l acc : List α), List.Pairwise (fun a b => le a b = true) acc →
      List.Pairwise (fun a b => le a b = true)
        (List.foldl (fun acc x => insortBy le x acc) acc l) := by
  intro l
  induction l with
  | nil => intro acc h; exact h
  | cons x xs ih =>
    intro acc h
    exact ih (insortBy le x acc) (insortBy_pairwise le htot htr x acc h)

/-- C4: the distributable bucket produced by `_sort_collections_by_type` is
in ascending order of the tag parsers' key-part counts, whatever the input
order was, and it holds exactly the distributable collections of the
input. -/
theorem c4_distributables_sorted_ascending (file_collections : List FileCollection) :
    List.Pairwise (fun c₁ c₂ : FileCollection =>
        c₁.tag.parser.key_parts.length ≤ c₂.tag.parser.key_parts.length)
      (_sort_collections_by_type file_collections).2.1 ∧
    List.Perm (_sort_collections_by_type file_collections).2.1
      (file_collections.filter (fun c => c.tag.isDistributable)) := by
  constructor
  · have hp := ssortBy_pairwise
      (fun c₁ c₂ : FileCollection =>
        decide (c₁.tag.parser.key_parts.length ≤ c₂.tag.parser.key_parts.length))
      (fun a b => by
        rcases Nat.le_total a.tag.parser.key_parts.length
            b.tag.parser.key_parts.length with h | h
        · left; exact decide_eq_true h
        · right; exact decide_eq_true h)
      (fun a b c hab hbc =>
        decide_eq_true (Nat.le_trans (of_decide_eq_true hab) (of_decide_eq_true hbc)))
      (file_collections.filter (fun c => c.tag.isDistributable)) []
      List.Pairwise.nil
    exact List.Pairwise.imp (fun h => of_decide_eq_true h) hp
  · exact ssortBy_perm _ _

/-! ## Join lemmas (phase 2 of `group_by_key`) -/

/-- C3: the phase-2 join of `group_by_key` for one distributable tag.
Every group of the phase-1 dictionary keeps its key; its reduced join key
(the full key minus the `distribute_over` part names) is looked up in the
distributable tag's collection: when a path is stored there the group
receives it under the tag's name, and when the reduced key is absent the
group is left unchanged. -/
theorem c3_distributable_join (c : FileCollection) :
    ∀ (groups groups' : List (FKey × Group)),
      distributeOne c groups = Except.ok groups' →
      groups'.length = groups.length ∧
      ∀ key g, (key, g) ∈ groups →
        ∃ jk, reduceKey key c.tag.distribute_over = Except.ok jk ∧
          ((∃ e, alookup keyBeq c.files jk = some e ∧
              (key, aset sBeq g c.tag.name e) ∈ groups') ∨
           (alookup keyBeq c.files jk = none ∧ (key, g) ∈ groups')) := by
  intro groups
  induction groups with
  | nil =>
    intro groups' h
    simp only [distributeOne, Except.ok.injEq] at h
    subst h
    exact ⟨rfl, by simp⟩
  | cons kv rest ih =>
    obtain ⟨k0, g0⟩ := kv
    intro groups' h
    unfold distributeOne at h
    split at h
    · exact Except.noConfusion h
    case h_2 jk0 hjk =>
      split at h
      · exact Except.noConfusion h
      case h_2 rest' hrest =>
        obtain ⟨ihlen, ihmem⟩ := ih rest' hrest
        split at h
        case h_1 e0 halk =>
          injection h with h
          subst h
          refine ⟨by simp [ihlen], ?_⟩
          intro key g hmem
          rcases List.mem_cons.mp hmem with hhead | htail
          · injection hhead with hkey hg
            subst hkey; subst hg
            exact ⟨jk0, hjk, Or.inl ⟨e0, halk, List.mem_cons_self _ _⟩⟩
          · obtain ⟨jk, hr, hcases⟩ := ihmem key g htail
            refine ⟨jk, hr, hcases.imp ?_ ?_⟩
            · rintro ⟨e, h1, h2⟩
              exact ⟨e, h1, List.mem_cons_of_mem _ h2⟩
            · rintro ⟨h1, h2⟩
              exact ⟨h1, List.mem_cons_of_mem _ h2⟩
        case h_2 halk =>
          injection h with h
          subst h
          refine ⟨by simp [ihlen], ?_⟩
          intro key g hmem
          rcases List.mem_cons.mp hmem with hhead | htail
          · injection hhead with hkey hg
            subst hkey; subst hg
            exact ⟨jk0, hjk, Or.inr ⟨halk, List.mem_cons_self _ _⟩⟩
          · obtain ⟨jk, hr, hcases⟩ := ihmem key g htail
            refine ⟨jk, hr, hcases.imp ?_ ?_⟩
            · rintro ⟨e, h1, h2⟩
              exact ⟨e, h1, List.mem_cons_of_mem _ h2⟩
            · rintro ⟨h1, h2⟩
              exact ⟨h1, List.mem_cons_of_mem _ h2⟩

/-- Witness for C3 on the spec's crop/caption scenario: the group at full
key `{id: "1", ci: "0"}` receives the caption stored at reduced key
`{id: "1"}`. -/
theorem c3_distributable_join_witness :
    (demoGroups.map (fun kv =>
        (kv.1, aset sBeq kv.2 distDemoColl.tag.name
          (FileEntry.one ("1.txt"))))).length = demoGroups.length ∧
    ∀ key g, (key, g) ∈ demoGroups →
      ∃ jk, reduceKey key distDemoColl.tag.distribute_over = Except.ok jk ∧
        ((∃ e, alookup keyBeq distDemoColl.files jk = some e ∧
            (key, aset sBeq g distDemoColl.tag.name e) ∈
              demoGroups.map (fun kv =>
                (kv.1, aset sBeq kv.2 distDemoColl.tag.name
                  (FileEntry.one ("1.txt"))))) ∨
         (alookup keyBeq distDemoColl.files jk = none ∧
           (key, g) ∈ demoGroups.map (fun kv =>
                (kv.1, aset sBeq kv.2 distDemoColl.tag.name
                  (FileEntry.one ("1.txt")))))) :=
  c3_distributable_join distDemoColl demoGroups _ (by rfl)

/-! ## Formatting and single-part merge (phases 3 and 4 of `group_by_key`) -/

theorem sBeq_refl (s : String) : sBeq s s = true := by simp [sBeq]

theorem sBeq_false_himp {s s' : String} (h : sBeq s s' = false) :
    ∀ a, sBeq a s = true → sBeq a s' = false := by
  intro a ha
  simp only [sBeq, decide_eq_true_eq] at ha
  simp only [sBeq, decide_eq_false_iff_not] at h ⊢
  rw [ha]; exact h

theorem setdefaultSetStr_spec (fg : List (GroupKey × Group)) (s : GroupKey)
    (name : TagName) (e : FileEntry) :
    (∀ g, alookup sBeq fg s = some g →
      alookup sBeq (setdefaultSetStr fg s name e) s = some (aset sBeq g name e)) ∧
    (alookup sBeq fg s = none →
      setdefaultSetStr fg s name e = fg ++ [(s, [(name, e)])]) ∧
    (∀ s', sBeq s s' = false →
      alookup sBeq (setdefaultSetStr fg s name e) s' = alookup sBeq fg s') := by
  cases halk : alookup sBeq fg s with
  | some g =>
    refine ⟨?_, ?_, ?_⟩
    · intro g' hg'
      injection hg' with hg'
      subst hg'
      simp only [setdefaultSetStr, halk]
      exact alookup_aset_self (sBeq_refl s)
    · intro hnone
      cases hnone
    · intro s' hs'
      simp only [setdefaultSetStr, halk]
      exact alookup_aset_ne hs' (sBeq_false_himp hs')
  | none =>
    refine ⟨?_, ?_, ?_⟩
    · intro g' hg'
      cases hg'
    · intro _
      simp [setdefaultSetStr, halk]
    · intro s' hs'
      simp only [setdefaultSetStr, halk]
      rw [alookup_append_single]
      cases halk' : alookup sBeq fg s' with
      | none => simp [hs']
      | some w => simp

theorem formatKeysAux_spec (fmt : MultiPartKey → GroupKey) :
    ∀ (groups : List (FKey × Group)) (acc fg : List (GroupKey × Group)),
      formatKeysAux fmt groups acc = Except.ok fg →
      (∀ kv ∈ groups, ∃ k, kv.1 = FKey.multi k) ∧
      (∀ q ∈ fg, q ∈ acc ∨ ∃ k g, (FKey.multi k, g) ∈ groups ∧ q.1 = fmt k) := by
  intro groups
  induction groups with
  | nil =>
    intro acc fg h
    simp only [formatKeysAux, Except.ok.injEq] at h
    subst h
    exact ⟨by simp, fun q hq => Or.inl hq⟩
  | cons kv rest ih =>
    intro acc fg h
    unfold formatKeysAux at h
    split at h
    case h_1 k hk =>
      obtain ⟨ih1, ih2⟩ := ih _ fg h
      constructor
      · intro kv' hkv'
        rcases List.mem_cons.mp hkv' with hh | ht
        · exact ⟨k, by rw [hh, hk]⟩
        · exact ih1 kv' ht
      · intro q hq
        rcases ih2 q hq with hacc | hrest
        · rcases mem_aset hacc with hin | ⟨hq2, hkey⟩
          · exact Or.inl hin
          · refine Or.inr ⟨k, kv.2, ?_, ?_⟩
            · have hkv : kv = (FKey.multi k, kv.2) := by
                rw [← hk]
              rw [← hkv]
              exact List.mem_cons_self kv rest
            · rcases hkey with hb | he
              · exact of_decide_eq_true hb
              · exact he
        · obtain ⟨k', g', hm, hq1⟩ := hrest
          exact Or.inr ⟨k', g', List.mem_cons_of_mem kv hm, hq1⟩
    case h_2 s hk => exact Except.noConfusion h

/-- C5: in `group_by_key`, single-part collections are merged last, into
the dictionary obtained by applying `key_formatter` to every accumulated
`MultiPartKey` (first conjunct: the pipeline order; second conjunct: every
key reaching phase 3 is a `MultiPartKey` and every formatted key is the
image under `key_formatter` of an accumulated key); each single-part entry
is inserted directly under its own native key — joining the existing group
stored at that key, or creating a new group when none exists — leaving all
other keys unchanged (third conjunct). -/
theorem c5_format_then_single_merge :
    (∀ (fcs : List FileCollection) (fmt : MultiPartKey → GroupKey),
      group_by_key fcs fmt =
        match distributeAll (_sort_collections_by_type fcs).2.1
            (phase1 (_sort_collections_by_type fcs).1) with
        | Except.error e => Except.error e
        | Except.ok groups =>
          match formatKeys fmt groups with
          | Except.error e => Except.error e
          | Except.ok formatted =>
            mergeSingles (_sort_collections_by_type fcs).2.2 formatted) ∧
    (∀ (fmt : MultiPartKey → GroupKey) (groups : List (FKey × Group))
        (fg : List (GroupKey × Group)),
      formatKeys fmt groups = Except.ok fg →
      (∀ kv ∈ groups, ∃ k, kv.1 = FKey.multi k) ∧
      ∀ q ∈ fg, ∃ k g, (FKey.multi k, g) ∈ groups ∧ q.1 = fmt k) ∧
    (∀ (fg : List (GroupKey × Group)) (s : GroupKey) (name : TagName)
        (e : FileEntry),
      (∀ g, alookup sBeq fg s = some g →
        alookup sBeq (setdefaultSetStr fg s name e) s =
          some (aset sBeq g name e)) ∧
      (alookup sBeq fg s = none →
        setdefaultSetStr fg s name e = fg ++ [(s, [(name, e)])]) ∧
      (∀ s', sBeq s s' = false →
        alookup sBeq (setdefaultSetStr fg s name e) s' = alookup sBeq fg s')) := by
  refine ⟨fun fcs fmt => rfl, ?_, setdefaultSetStr_spec⟩
  intro fmt groups fg h
  have hspec := formatKeysAux_spec fmt groups [] fg h
  refine ⟨hspec.1, fun q hq => ?_⟩
  rcases hspec.2 q hq with hacc | hres
  · cases hacc
  · exact hres

/-- Witness for C5 at a concrete input: one accumulated group formatted by
a constant formatter, then probed through the insertion characterization. -/
theorem c5_format_then_single_merge_witness :
    ((∀ kv ∈ demoGroups, ∃ k, kv.1 = FKey.multi k) ∧
     ∀ q ∈ [(("g1" : GroupKey),
         ([("crop", FileEntry.one ("1_0.jpg"))] : Group))],
       ∃ k g, (FKey.multi k, g) ∈ demoGroups ∧
         q.1 = (fun (_ : MultiPartKey) => ("g1" : GroupKey)) k) :=
  c5_format_then_single_merge.2.1 (fun _ => ("g1" : GroupKey)) demoGroups
    [(("g1" : GroupKey), ([("crop", FileEntry.one ("1_0.jpg"))] : Group))]
    (by rfl)

/-! ## Matcher lemmas for the greediness law -/

theorem lazyCap_some {n : PartName} {k : List Char → Option Captures}
    {acc ds : List Char} {caps : Captures} (h : k ds = some caps) :
    lazyCap n k acc ds = some ((n, String.mk acc.reverse) :: caps) := by
  cases ds with
  | nil =>
    unfold lazyCap
    rw [h]
  | cons d ds' =>
    unfold lazyCap
    rw [h]

theorem lazyCap_none_nil {n : PartName} {k : List Char → Option Captures}
    {acc : List Char} (h : k [] = none) :
    lazyCap n k acc [] = none := by
  unfold lazyCap
  rw [h]

theorem lazyCap_none_cons {n : PartName} {k : List Char → Option Captures}
    {acc : List Char} {d : Char} {ds' : List Char} (h : k (d :: ds') = none) :
    lazyCap n k acc (d :: ds') = lazyCap n k (d :: acc) ds' := by
  have hstep : lazyCap n k acc (d :: ds') =
      match k (d :: ds') with
      | some caps => some ((n, String.mk acc.reverse) :: caps)
      | none => lazyCap n k (d :: acc) ds' := rfl
  rw [hstep, h]

theorem greedyCap_nil {n : PartName} {k : List Char → Option Captures}
    {acc : List Char} :
    greedyCap n k acc [] =
      (k []).map (fun caps => (n, String.mk acc.reverse) :: caps) := rfl

theorem greedyCap_cons {n : PartName} {k : List Char → Option Captures}
    {acc : List Char} {d : Char} {ds' : List Char} :
    greedyCap n k acc (d :: ds') =
      match greedyCap n k (d :: acc) ds' with
      | some caps => some caps
      | none => (k (d :: ds')).map
          (fun caps => (n, String.mk acc.reverse) :: caps) := rfl

theorem lazyEnd (ds : List Char) : ∀ acc : List Char,
    lazyCap "b" (pmatchAux []) acc ds =
      some [("b", String.mk (acc.reverse ++ ds))] := by
  induction ds with
  | nil =>
    intro acc
    rw [lazyCap_some (show pmatchAux [] [] = some [] from rfl)]
    simp
  | cons d ds' ih =>
    intro acc
    rw [lazyCap_none_cons (show pmatchAux [] (d :: ds') = none from rfl), ih]
    simp

theorem bMatch (d2 : Char) (ds2 : List Char) :
    pmatchAux [PTok.capture "b" false] (d2 :: ds2) =
      some [("b", String.mk (d2 :: ds2))] := by
  show lazyCap "b" (pmatchAux []) [d2] ds2 = _
  rw [lazyEnd]
  simp

theorem kb_nil : pmatchAux [PTok.lit '-', PTok.capture "b" false] [] = none := rfl

theorem kb_dash_only :
    pmatchAux [PTok.lit '-', PTok.capture "b" false] ['-'] = none := rfl

theorem kb_wrong (d : Char) (hd : d ≠ '-') (ds : List Char) :
    pmatchAux [PTok.lit '-', PTok.capture "b" false] (d :: ds) = none := by
  show (if d = '-' then pmatchAux [PTok.capture "b" false] ds else none) = none
  rw [if_neg hd]

theorem kb_ok (d2 : Char) (ds2 : List Char) :
    pmatchAux [PTok.lit '-', PTok.capture "b" false] ('-' :: d2 :: ds2) =
      some [("b", String.mk (d2 :: ds2))] := by
  show (if '-' = '-' then pmatchAux [PTok.capture "b" false] (d2 :: ds2)
        else none) = _
  rw [if_pos rfl, bMatch]

theorem lazyABaux (ds : List Char) : ∀ acc : List Char,
    (∃ va vb : List Char, ds = va ++ '-' :: vb ∧ vb ≠ []) →
    ∃ va vb : List Char,
      lazyCap "a" (pmatchAux [PTok.lit '-', PTok.capture "b" false]) acc ds =
        some [("a", String.mk (acc.reverse ++ va)), ("b", String.mk vb)] ∧
      ds = va ++ '-' :: vb ∧ vb ≠ [] ∧
      ∀ va' vb' : List Char, ds = va' ++ '-' :: vb' → vb' ≠ [] →
        va.length ≤ va'.length := by
  induction ds with
  | nil =>
    intro acc h
    exfalso
    obtain ⟨va, vb, heq, hne⟩ := h
    cases va <;> simp at heq
  | cons d ds' ih =>
    intro acc h
    by_cases hd : d = '-'
    · subst hd
      cases hds' : ds' with
      | nil =>
        exfalso
        subst hds'
        obtain ⟨va, vb, heq, hne⟩ := h
        cases va with
        | nil =>
          simp only [List.nil_append, List.cons.injEq] at heq
          exact hne heq.2.symm
        | cons x va1 =>
          simp only [List.cons_append, List.cons.injEq] at heq
          rcases heq with ⟨_, heq⟩
          cases va1 <;> simp at heq
      | cons d2 ds2 =>
        subst hds'
        refine ⟨[], d2 :: ds2, ?_, by simp, by simp,
          fun va' vb' _ _ => Nat.zero_le _⟩
        rw [lazyCap_some (kb_ok d2 ds2)]
        simp
    · obtain ⟨va, vb, heq, hne⟩ := h
      cases va with
      | nil =>
        exfalso
        injection heq with h1 _
        exact hd h1
      | cons x va1 =>
        injection heq with h1 h2
        obtain ⟨va0, vb0, hres, hsp, hne0, hmin⟩ := ih (d :: acc) ⟨va1, vb, h2, hne⟩
        refine ⟨d :: va0, vb0, ?_, by simp [hsp], hne0, ?_⟩
        · rw [lazyCap_none_cons (kb_wrong d hd ds'), hres]
          simp
        · intro va' vb' heq' hne'
          cases va' with
          | nil =>
            exfalso
            injection heq' with h1' _
            exact hd h1'
          | cons x' va1' =>
            injection heq' with h1' h2'
            have hle := hmin va1' vb' h2' hne'
            simp only [List.length_cons]
            omega

theorem greedyNoSplit (ds : List Char) : ∀ acc : List Char,
    (¬ ∃ va vb : List Char, ds = va ++ '-' :: vb ∧ vb ≠ []) →
    greedyCap "a" (pmatchAux [PTok.lit '-', PTok.capture "b" false]) acc ds =
      none := by
  induction ds with
  | nil =>
    intro acc _
    rw [greedyCap_nil, kb_nil]
    rfl
  | cons d ds' ih =>
    intro acc h
    have hno' : ¬ ∃ va vb : List Char, ds' = va ++ '-' :: vb ∧ vb ≠ [] := by
      rintro ⟨va, vb, heq, hne⟩
      exact h ⟨d :: va, vb, by simp [heq], hne⟩
    have hrec := ih (d :: acc) hno'
    rw [greedyCap_cons, hrec]
    by_cases hd : d = '-'
    · subst hd
      cases hds' : ds' with
      | nil =>
        rw [kb_dash_only]
        rfl
      | cons d2 ds2 =>
        exfalso
        exact h ⟨[], d2 :: ds2, by simp [hds'], by simp⟩
    · rw [kb_wrong d hd ds']
      rfl

theorem greedyABaux (ds : List Char) : ∀ acc : List Char,
    (∃ va vb : List Char, ds = va ++ '-' :: vb ∧ vb ≠ []) →
    ∃ va vb : List Char,
      greedyCap "a" (pmatchAux [PTok.lit '-', PTok.capture "b" false]) acc ds =
        some [("a", String.mk (acc.reverse ++ va)), ("b", String.mk vb)] ∧
      ds = va ++ '-' :: vb ∧ vb ≠ [] ∧
      ∀ va' vb' : List Char, ds = va' ++ '-' :: vb' → vb' ≠ [] →
        va'.length ≤ va.length := by
  induction ds with
  | nil =>
    intro acc h
    exfalso
    obtain ⟨va, vb, heq, _⟩ := h
    cases va <;> simp at heq
  | cons d ds' ih =>
    intro acc h
    by_cases hsp' : ∃ va vb : List Char, ds' = va ++ '-' :: vb ∧ vb ≠ []
    · obtain ⟨va0, vb0, hres, hsp, hne0, hmax⟩ := ih (d :: acc) hsp'
      refine ⟨d :: va0, vb0, ?_, by simp [hsp], hne0, ?_⟩
      · rw [greedyCap_cons, hres]
        simp
      · intro va' vb' heq' hne'
        cases va' with
        | nil => simp
        | cons x' va1' =>
          injection heq' with h1' h2'
          have hle := hmax va1' vb' h2' hne'
          simp only [List.length_cons]
          omega
    · obtain ⟨va, vb, heq, hne⟩ := h
      cases va with
      | cons x va1 =>
        exfalso
        injection heq with h1 h2
        exact hsp' ⟨va1, vb, h2, hne⟩
      | nil =>
        injection heq with h1 h2
        subst h1
        subst h2
        have hrec := greedyNoSplit ds' ('-' :: acc) hsp'
        obtain ⟨d2, ds2, hds⟩ := List.exists_cons_of_ne_nil hne
        subst hds
        refine ⟨[], d2 :: ds2, ?_, by simp, by simp, ?_⟩
        · rw [greedyCap_cons, hrec, kb_ok]
          simp
        · intro va' vb' heq' hne'
          cases va' with
          | nil => simp
          | cons x' va1' =>
            exfalso
            injection heq' with _ h2'
            exact hsp' ⟨va1', vb', h2', hne'⟩

/-- C6: greediness law.  `{a}-{b}` compiles to a lazy capture, a literal
dash and a lazy capture; `{a!g}-{b}` makes the first capture greedy.  On
any string admitting a split (both sides non-empty), the lazy pattern
assigns the shortest such prefix to `a`, the greedy pattern the longest.
The concrete instances of the test suite are reproduced:
`foo/a-a-a-a/tracks.json` yields `artist = "a"`, `album = "a-a-a"` lazily
and `artist = "a-a-a"`, `album = "a"` greedily. -/
theorem c6_greediness (s : List Char)
    (h : ∃ va vb : List Char, va ≠ [] ∧ vb ≠ [] ∧ s = va ++ '-' :: vb) :
    PathParser.compile ("{a}-{b}") =
      some ⟨[PTok.capture "a" false, PTok.lit '-', PTok.capture "b" false]⟩ ∧
    PathParser.compile ("{a!g}-{b}") =
      some ⟨[PTok.capture "a" true, PTok.lit '-', PTok.capture "b" false]⟩ ∧
    (∃ va vb : List Char,
      pmatchAux [PTok.capture "a" false, PTok.lit '-', PTok.capture "b" false] s =
        some [("a", String.mk va), ("b", String.mk vb)] ∧
      s = va ++ '-' :: vb ∧ va ≠ [] ∧ vb ≠ [] ∧
      ∀ va' vb' : List Char, s = va' ++ '-' :: vb' → va' ≠ [] → vb' ≠ [] →
        va.length ≤ va'.length) ∧
    (∃ va vb : List Char,
      pmatchAux [PTok.capture "a" true, PTok.lit '-', PTok.capture "b" false] s =
        some [("a", String.mk va), ("b", String.mk vb)] ∧
      s = va ++ '-' :: vb ∧ va ≠ [] ∧ vb ≠ [] ∧
      ∀ va' vb' : List Char, s = va' ++ '-' :: vb' → va' ≠ [] → vb' ≠ [] →
        va'.length ≤ va.length) ∧
    pmatch ("foo/{artist}-{album}/tracks.json") ("foo/a-a-a-a/tracks.json") =
      some (some [("artist", "a"), ("album", "a-a-a")]) ∧
    pmatch ("foo/{artist!g}-{album}/tracks.json") ("foo/a-a-a-a/tracks.json") =
      some (some [("artist", "a-a-a"), ("album", "a")]) := by
  obtain ⟨va, vb, hva, hvb, heq⟩ := h
  obtain ⟨c0, va1, hva1⟩ := List.exists_cons_of_ne_nil hva
  subst hva1
  subst heq
  refine ⟨rfl, rfl, ?_, ?_, rfl, rfl⟩
  · obtain ⟨va0, vb0, hres, hsp, hne0, hmin⟩ :=
      lazyABaux (va1 ++ '-' :: vb) [c0] ⟨va1, vb, rfl, hvb⟩
    have hstep : pmatchAux
        [PTok.capture "a" false, PTok.lit '-', PTok.capture "b" false]
        ((c0 :: va1) ++ '-' :: vb) =
      lazyCap "a" (pmatchAux [PTok.lit '-', PTok.capture "b" false]) [c0]
        (va1 ++ '-' :: vb) := rfl
    refine ⟨c0 :: va0, vb0, ?_, by simp [hsp], by simp, hne0, ?_⟩
    · rw [hstep, hres]
      simp
    · intro va' vb' heq' hva' hvb'
      obtain ⟨x', va1', hx⟩ := List.exists_cons_of_ne_nil hva'
      subst hx
      rw [List.cons_append, List.cons_append] at heq'
      injection heq' with h1' h2'
      have hle := hmin va1' vb' h2' hvb'
      simp only [List.length_cons]
      omega
  · obtain ⟨va0, vb0, hres, hsp, hne0, hmax⟩ :=
      greedyABaux (va1 ++ '-' :: vb) [c0] ⟨va1, vb, rfl, hvb⟩
    have hstep : pmatchAux
        [PTok.capture "a" true, PTok.lit '-', PTok.capture "b" false]
        ((c0 :: va1) ++ '-' :: vb) =
      greedyCap "a" (pmatchAux [PTok.lit '-', PTok.capture "b" false]) [c0]
        (va1 ++ '-' :: vb) := rfl
    refine ⟨c0 :: va0, vb0, ?_, by simp [hsp], by simp, hne0, ?_⟩
    · rw [hstep, hres]
      simp
    · intro va' vb' heq' hva' hvb'
      obtain ⟨x', va1', hx⟩ := List.exists_cons_of_ne_nil hva'
      subst hx
      rw [List.cons_append, List.cons_append] at heq'
      injection heq' with h1' h2'
      have hle := hmax va1' vb' h2' hvb'
      simp only [List.length_cons]
      omega

/-- Witness for C6 on the spec law's string `"x-y-z"`. -/
theorem c6_greediness_witness :
    (∃ va vb : List Char, va ≠ [] ∧ vb ≠ [] ∧
      ("x-y-z").data = va ++ '-' :: vb) ∧
    (PathParser.compile ("{a}-{b}") =
      some ⟨[PTok.capture "a" false, PTok.lit '-', PTok.capture "b" false]⟩ ∧
    PathParser.compile ("{a!g}-{b}") =
      some ⟨[PTok.capture "a" true, PTok.lit '-', PTok.capture "b" false]⟩ ∧
    (∃ va vb : List Char,
      pmatchAux [PTok.capture "a" false, PTok.lit '-', PTok.capture "b" false]
          (("x-y-z").data) =
        some [("a", String.mk va), ("b", String.mk vb)] ∧
      ("x-y-z").data = va ++ '-' :: vb ∧ va ≠ [] ∧ vb ≠ [] ∧
      ∀ va' vb' : List Char, ("x-y-z").data = va' ++ '-' :: vb' →
        va' ≠ [] → vb' ≠ [] → va.length ≤ va'.length) ∧
    (∃ va vb : List Char,
      pmatchAux [PTok.capture "a" true, PTok.lit '-', PTok.capture "b" false]
          (("x-y-z").data) =
        some [("a", String.mk va), ("b", String.mk vb)] ∧
      ("x-y-z").data = va ++ '-' :: vb ∧ va ≠ [] ∧ vb ≠ [] ∧
      ∀ va' vb' : List Char, ("x-y-z").data = va' ++ '-' :: vb' →
        va' ≠ [] → vb' ≠ [] → va'.length ≤ va.length) ∧
    pmatch ("foo/{artist}-{album}/tracks.json") ("foo/a-a-a-a/tracks.json") =
      some (some [("artist", "a"), ("album", "a-a-a")]) ∧
    pmatch ("foo/{artist!g}-{album}/tracks.json") ("foo/a-a-a-a/tracks.json") =
      some (some [("artist", "a-a-a"), ("album", "a")])) :=
  ⟨⟨['x'], ['y', '-', 'z'], by simp, by simp, rfl⟩,
   c6_greediness (("x-y-z").data) ⟨['x'], ['y', '-', 'z'], by simp, by simp, rfl⟩⟩

/-! ## Star segments -/

theorem starGo_spec (k : List Char → Option Captures) :
    ∀ (ds : List Char) (caps : Captures), starGo k ds = some caps →
      ∃ w rest, ds = w ++ rest ∧ (∀ ch ∈ w, ch ≠ '/') ∧ k rest = some caps := by
  intro ds
  induction ds with
  | nil =>
    intro caps h
    exact ⟨[], [], rfl, by simp, h⟩
  | cons d ds' ih =>
    intro caps h
    by_cases hd : d = '/'
    · have hstep0 : starGo k (d :: ds') =
          if d = '/' then k (d :: ds')
          else
            match starGo k ds' with
            | some caps => some caps
            | none => k (d :: ds') := rfl
      rw [hstep0, if_pos hd] at h
      exact ⟨[], d :: ds', rfl, by simp, h⟩
    · have hstep0 : starGo k (d :: ds') =
          if d = '/' then k (d :: ds')
          else
            match starGo k ds' with
            | some caps => some caps
            | none => k (d :: ds') := rfl
      rw [hstep0, if_neg hd] at h
      split at h
      next caps0 hrec =>
        injection h with h
        subst h
        obtain ⟨w, rest, hw, hns, hk⟩ := ih caps0 hrec
        refine ⟨d :: w, rest, by simp [hw], ?_, hk⟩
        intro ch hch
        rcases List.mem_cons.mp hch with hch | hch
        · rw [hch]; exact hd
        · exact hns ch hch
      next hrec =>
        exact ⟨[], d :: ds', rfl, by simp, h⟩

/-- C7: segment-wildcard law.  A successful match of a pattern whose next
token is a standalone `*` segment always lets that segment consume one or
more characters none of which is the path separator, so the segment never
spans a directory boundary — and a path that would force it to do so is
rejected, as on the concrete test inputs: `foo/*/bar_{index}.txt` rejects
both `foo/bar_1.txt` and `foo/baz/clang/bar_1.txt` and accepts
`foo/baz/bar_1.txt`. -/
theorem c7_star_single_segment :
    (∀ (ts : List PTok) (ds : List Char) (caps : Captures),
      pmatchAux (PTok.starSeg :: ts) ds = some caps →
      ∃ w rest, ds = w ++ rest ∧ w ≠ [] ∧ (∀ ch ∈ w, ch ≠ '/') ∧
        pmatchAux ts rest = some caps) ∧
    PathParser.compile ("foo/*/bar_{index}.txt") =
      some ⟨[PTok.lit 'f', PTok.lit 'o', PTok.lit 'o', PTok.lit '/',
        PTok.starSeg, PTok.lit '/', PTok.lit 'b', PTok.lit 'a', PTok.lit 'r',
        PTok.lit '_', PTok.capture "index" false, PTok.anyChar,
        PTok.lit 't', PTok.lit 'x', PTok.lit 't']⟩ ∧
    pmatch ("foo/*/bar_{index}.txt") ("foo/bar_1.txt") = some none ∧
    pmatch ("foo/*/bar_{index}.txt") ("foo/baz/bar_1.txt") =
      some (some [("index", "1")]) ∧
    pmatch ("foo/*/bar_{index}.txt") ("foo/baz/clang/bar_1.txt") = some none := by
  refine ⟨?_, rfl, rfl, rfl, rfl⟩
  intro ts ds caps h
  cases ds with
  | nil =>
    have hstep : pmatchAux (PTok.starSeg :: ts) [] = none := rfl
    rw [hstep] at h
    exact Option.noConfusion h
  | cons d ds' =>
    by_cases hd : d = '/'
    · have hstep : pmatchAux (PTok.starSeg :: ts) (d :: ds') =
          if d = '/' then none else starGo (fun r => pmatchAux ts r) ds' := rfl
      rw [hstep, if_pos hd] at h
      exact Option.noConfusion h
    · have hstep : pmatchAux (PTok.starSeg :: ts) (d :: ds') =
          if d = '/' then none else starGo (fun r => pmatchAux ts r) ds' := rfl
      rw [hstep, if_neg hd] at h
      obtain ⟨w, rest, hw, hns, hk⟩ :=
        starGo_spec (fun r => pmatchAux ts r) ds' caps h
      refine ⟨d :: w, rest, by simp [hw], by simp, ?_, hk⟩
      intro ch hch
      rcases List.mem_cons.mp hch with hch | hch
      · rw [hch]; exact hd
      · exact hns ch hch

/-- Witness for C7: a star segment consuming the whole input `"ab"`. -/
theorem c7_star_single_segment_witness :
    ∃ w rest, (("ab").data) = w ++ rest ∧ w ≠ [] ∧ (∀ ch ∈ w, ch ≠ '/') ∧
      pmatchAux [] rest = some [] :=
  c7_star_single_segment.1 [] (("ab").data) [] (by rfl)

/-- C8: `key_parts` lists placeholder names in left-to-right order of
appearance; `!g` modifiers have no effect on the list (both on the token
level and on the concrete pattern pair); escaped braces and native
pass-through regex syntax (such as an embedded `(?P<...>)` group)
contribute no key part.  All the test suite's `key_parts` rows are
reproduced. -/
theorem c8_key_parts_order :
    key_parts (".*") = some [] ∧
    key_parts ("{z}_{a}") = some ["z", "a"] ∧
    key_parts ("foo/bar_{index}.txt") = some ["index"] ∧
    key_parts ("foo/*/bar_{index}.txt") = some ["index"] ∧
    key_parts ("foo/bar_{index}.(mp3|aac|wav)") = some ["index"] ∧
    key_parts ("foo/{subset}/{name}.txt") = some ["subset", "name"] ∧
    key_parts ("foo/(a|b)/file_{index}.txt") = some ["index"] ∧
    key_parts ("foo/{artist!g}-{album}/tracks.json") =
      some ["artist", "album"] ∧
    key_parts ("(?P<this should be escaped>\\d){foo}") = some ["foo"] ∧
    key_parts ("\\\x7bthis should be escaped\\\x7d{foo}") = some ["foo"] ∧
    key_parts ("foo/{artist!g}-{album}/tracks.json") =
      key_parts ("foo/{artist}-{album}/tracks.json") ∧
    (∀ toks : List PTok,
      (PathParser.mk (toks.map stripGreedy)).key_parts =
        (PathParser.mk toks).key_parts) := by
  refine ⟨rfl, rfl, rfl, rfl, rfl, rfl, rfl, rfl, rfl, rfl, rfl, ?_⟩
  intro toks
  induction toks with
  | nil => rfl
  | cons t ts ih =>
    have ih' := ih
    simp only [PathParser.key_parts] at ih' ⊢
    cases t <;> simp [stripGreedy, List.filterMap_cons, ih']

end Grob
